import Mathlib

/-!
Verification of the tree-outliner-sync core against its specification.

This file shallowly embeds the TypeScript sources:
  * `src/store/operations.ts`   — pure tree operations on flat node lists,
  * `src/outliner/scrapboxConverter.ts` — the indentation text converter,
  * `src/visualization/dragCalculator.ts` (V2 part) — drop-target resolution,
  * the zustand store with history (undo/redo) management.

JavaScript numbers are modelled as rationals (all arithmetic performed by
the code — `+ 0.5`, `+ 1`, `* 0.01`, comparisons — is exact on the inputs
the claims quantify over).  `Array.prototype.sort` with the comparator
`(a, b) => a.order - b.order` is a stable ascending sort and is modelled
by a stable insertion sort.  Unbounded structural recursion in the source
(`getDescendantIds`, the `visit` closure of `getFlattenedOrder`,
`getDepth`) is modelled with an explicit fuel of `nodes.length`, which is
enough on every snapshot whose parent chains terminate — exactly the
snapshots on which the JavaScript recursion itself terminates.
-/

namespace TreeOutliner

attribute [local semireducible] Rat.add Rat.mul Rat.sub Rat.inv

/-- A tree node, from the `TreeNode` interface (flat list + `parentId`).
`order : ℚ` models the JavaScript number. -/
structure TreeNode where
  id : String
  text : String
  parentId : Option String
  order : ℚ
deriving DecidableEq

/-- Modelled from the spec: `src/store/types.ts` is not among the sources
(only its importers and tests are), so the constant `ROOT_NODE_ID` it
exports is missing.  Per spec §3 the sentinel "forest root" carries an
opaque reserved identifier; the tests pair it with the text `__root__`.
We model it as that ordinary non-empty identifier. -/
def ROOT_NODE_ID : String := "__root__"

/-- Stable insertion of a node into a list that is already sorted by
`order`: the node is placed before the first element whose order is ≥ its
own, which matches the stable ascending JavaScript sort. -/
def insertByOrder (x : TreeNode) : List TreeNode → List TreeNode
  | [] => [x]
  | y :: ys => if x.order ≤ y.order then x :: y :: ys else y :: insertByOrder x ys

/-- Stable sort by `order`, modelling
`arr.sort((a, b) => a.order - b.order)`. -/
def sortByOrder : List TreeNode → List TreeNode
  | [] => []
  | x :: xs => insertByOrder x (sortByOrder xs)

/-- `getChildren` from `operations.ts`: the nodes whose `parentId` equals
the given one, sorted ascending by `order`. -/
def getChildren (nodes : List TreeNode) (parentId : Option String) : List TreeNode :=
  sortByOrder (nodes.filter (fun n => decide (n.parentId = parentId)))

/-- Fueled body of `getDescendantIds` (the source recurses without a
bound; the fuel covers every snapshot on which that recursion
terminates). -/
def getDescendantIdsF (nodes : List TreeNode) : ℕ → String → List String
  | 0, _ => []
  | fuel + 1, nodeId =>
    (nodes.filter (fun n => decide (n.parentId = some nodeId))).foldr
      (fun c acc => c.id :: getDescendantIdsF nodes fuel c.id ++ acc) []

/-- `getDescendantIds` from `operations.ts`: ids of all transitive
children, in DFS order (`children.flatMap((c) => [c.id, ...rec])`). -/
def getDescendantIds (nodes : List TreeNode) (nodeId : String) : List String :=
  getDescendantIdsF nodes nodes.length nodeId

/-- Fueled body of the `visit` closure of `getFlattenedOrder`. -/
def getFlattenedOrderF (nodes : List TreeNode) : ℕ → Option String → List TreeNode
  | 0, _ => []
  | fuel + 1, parentId =>
    (getChildren nodes parentId).foldr
      (fun c acc => c :: getFlattenedOrderF nodes fuel (some c.id) ++ acc) []

/-- `getFlattenedOrder` from `operations.ts`: DFS pre-order produced by
`visit(null)` over `getChildren`. -/
def getFlattenedOrder (nodes : List TreeNode) : List TreeNode :=
  getFlattenedOrderF nodes nodes.length none

/-- Fueled body of `getDepth`.  The source returns 0 when the node is
absent or its `parentId` is falsy (null — or the empty string, which no
identifier of the data model takes), else `1 + getDepth(parent)`. -/
def getDepthF (nodes : List TreeNode) : ℕ → String → ℕ
  | 0, _ => 0
  | fuel + 1, nodeId =>
    match nodes.find? (fun n => decide (n.id = nodeId)) with
    | none => 0
    | some node =>
      match node.parentId with
      | none => 0
      | some p => if p = "" then 0 else 1 + getDepthF nodes fuel p

/-- `getDepth` from `operations.ts`. -/
def getDepth (nodes : List TreeNode) (nodeId : String) : ℕ :=
  getDepthF nodes nodes.length nodeId

/-- The order used when appending at the end of a sibling group:
`siblings.length > 0 ? Math.max(...orders) + 1 : 0`. -/
def nextOrder : List TreeNode → ℚ
  | [] => 0
  | x :: xs => xs.foldl (fun a n => max a n.order) x.order + 1

/-- Index of the last occurrence of `s` in `l` — the index the
JavaScript `Map` built by `normalizeOrders` retains when a key repeats. -/
def lastIdx : List String → String → Option ℕ
  | [], _ => none
  | x :: xs, s =>
    match lastIdx xs s with
    | some i => some (i + 1)
    | none => if x = s then some 0 else none

/-- The rewrite `normalizeOrders` applies to each node: nodes whose id
occurs in the sorted sibling group receive their index there as the new
`order`; every other node is untouched. -/
def normAssign (ids : List String) (n : TreeNode) : TreeNode :=
  match lastIdx ids n.id with
  | some i => { n with order := (i : ℚ) }
  | none => n

/-- Ids of the sibling group of `parentId`, in display order — the key
set of the `orderMap` built by `normalizeOrders`. -/
def groupIds (nodes : List TreeNode) (parentId : Option String) : List String :=
  (sortByOrder (nodes.filter (fun m => decide (m.parentId = parentId)))).map (fun m => m.id)

/-- `normalizeOrders` from `operations.ts`: sorts the sibling group of
`parentId`, then rewrites every node whose id occurs in that group with
its index in the sorted group as the new `order`. -/
def normalizeOrders (nodes : List TreeNode) (parentId : Option String) : List TreeNode :=
  nodes.map (normAssign (groupIds nodes parentId))

/-- `indentNode` from `operations.ts`: reparent under the previous
sibling, appended after that sibling's existing children; `none` when the
node is missing or is the first sibling. -/
def indentNode (nodes : List TreeNode) (nodeId : String) : Option (List TreeNode) :=
  match nodes.find? (fun n => decide (n.id = nodeId)) with
  | none => none
  | some node =>
    match (getChildren nodes node.parentId).findIdx? (fun s => decide (s.id = nodeId)) with
    | none => none
    | some 0 => none
    | some (i + 1) =>
      match (getChildren nodes node.parentId).get? i with
      | none => none
      | some prev =>
        some (nodes.map (fun n =>
          if n.id = nodeId then
            { n with parentId := some prev.id,
                     order := nextOrder (getChildren nodes (some prev.id)) }
          else n))

/-- `outdentNode` from `operations.ts`: reparent to the grandparent at
`parent.order + 0.5`, then normalize the grandparent's group.  The
`!node.parentId` guard of the source rejects only a falsy `parentId`
(null or the empty string). -/
def outdentNode (nodes : List TreeNode) (nodeId : String) : Option (List TreeNode) :=
  match nodes.find? (fun n => decide (n.id = nodeId)) with
  | none => none
  | some node =>
    match node.parentId with
    | none => none
    | some p =>
      if p = "" then none
      else
        match nodes.find? (fun n => decide (n.id = p)) with
        | none => none
        | some parent =>
          some (normalizeOrders
            (nodes.map (fun n =>
              if n.id = nodeId then
                { n with parentId := parent.parentId, order := parent.order + 1/2 }
              else n))
            parent.parentId)

/-- `addNodeAfter` from `operations.ts`: appended unchanged when
`afterNodeId` is absent, else inserted with the target's parent at
`order + 0.5` and normalized. -/
def addNodeAfter (nodes : List TreeNode) (afterNodeId : String) (newNode : TreeNode) :
    List TreeNode :=
  match nodes.find? (fun n => decide (n.id = afterNodeId)) with
  | none => nodes ++ [newNode]
  | some afterNode =>
    normalizeOrders
      (nodes ++ [{ newNode with parentId := afterNode.parentId,
                                order := afterNode.order + 1/2 }])
      afterNode.parentId

/-- The filter `deleteNode` keeps:
`n.id !== nodeId && n.parentId !== nodeId`. -/
def delKeep (nodeId : String) : TreeNode → Bool := fun n =>
  decide (n.id ≠ nodeId) && decide (n.parentId ≠ some nodeId)

/-- The filter selecting the deleted node's direct children:
`n.parentId === nodeId`. -/
def delKids (nodeId : String) : TreeNode → Bool := fun n =>
  decide (n.parentId = some nodeId)

/-- The promotion `deleteNode` applies to each direct child:
`parentId := node.parentId`, `order := node.order + (c.order+1)*0.01`. -/
def promote (node : TreeNode) : TreeNode → TreeNode := fun c =>
  { c with parentId := node.parentId, order := node.order + (c.order + 1) * (1/100) }

/-- `deleteNode` from `operations.ts`: drop the node and its children
from the list, re-append the children promoted to the deleted node's
parent, then normalize the parent's group.  Unchanged when the node is
absent. -/
def deleteNode (nodes : List TreeNode) (nodeId : String) : List TreeNode :=
  match nodes.find? (fun n => decide (n.id = nodeId)) with
  | none => nodes
  | some node =>
    normalizeOrders
      ((nodes.filter (delKeep nodeId)) ++ (nodes.filter (delKids nodeId)).map (promote node))
      node.parentId

/-- The success path of `moveNode`: reparent with the requested order
(or appended last) and normalize the destination group. -/
def moveApply (nodes : List TreeNode) (nodeId : String) (newParentId : Option String)
    (insertOrder : Option ℚ) : List TreeNode :=
  normalizeOrders
    (nodes.map (fun n =>
      if n.id = nodeId then
        { n with parentId := newParentId,
                 order := insertOrder.getD (nextOrder (getChildren nodes newParentId)) }
      else n))
    newParentId

/-- `moveNode` from `operations.ts`: fails on `nodeId === newParentId`
and on the descendant (cycle) check, else applies the move. -/
def moveNode (nodes : List TreeNode) (nodeId : String) (newParentId : Option String)
    (insertOrder : Option ℚ) : Option (List TreeNode) :=
  if some nodeId = newParentId then none
  else
    match newParentId with
    | none => some (moveApply nodes nodeId none insertOrder)
    | some p =>
      if p ∈ getDescendantIds nodes nodeId then none
      else some (moveApply nodes nodeId (some p) insertOrder)

/-- `moveNodeBefore` from `operations.ts`. -/
def moveNodeBefore (nodes : List TreeNode) (nodeId targetNodeId : String) :
    Option (List TreeNode) :=
  match nodes.find? (fun n => decide (n.id = targetNodeId)) with
  | none => none
  | some t => moveNode nodes nodeId t.parentId (some (t.order - 1/2))

/-- `moveNodeAfter` from `operations.ts`. -/
def moveNodeAfter (nodes : List TreeNode) (nodeId targetNodeId : String) :
    Option (List TreeNode) :=
  match nodes.find? (fun n => decide (n.id = targetNodeId)) with
  | none => none
  | some t => moveNode nodes nodeId t.parentId (some (t.order + 1/2))

/-- `moveNodeAsFirstChild` from `operations.ts`. -/
def moveNodeAsFirstChild (nodes : List TreeNode) (nodeId targetNodeId : String) :
    Option (List TreeNode) :=
  moveNode nodes nodeId (some targetNodeId) (some (-(1/2)))

/-! ### Outline text converter (`src/outliner/scrapboxConverter.ts`)

Strings are processed on their character lists so that the JavaScript
`split` / `trim` / regex prefix-matching semantics are modelled
explicitly. -/

/-- JavaScript `\s` on the characters the converter can meet. -/
def isWS (c : Char) : Bool := c = ' ' || c = '\t' || c = '\n' || c = '\r'

/-- `str.split(sep)` for a single-character separator. -/
def splitOnChar (sep : Char) : List Char → List (List Char)
  | [] => [[]]
  | c :: cs =>
    if c = sep then [] :: splitOnChar sep cs
    else
      match splitOnChar sep cs with
      | [] => [[c]]
      | h :: t => (c :: h) :: t

/-- `str.trim()`. -/
def trimChars (l : List Char) : List Char :=
  ((l.dropWhile isWS).reverse.dropWhile isWS).reverse

/-- The match of `/^(\s*)/` — the leading whitespace run. -/
def leadingWS (l : List Char) : List Char := l.takeWhile isWS

/-- `detectIndentUnit`: on the first line starting with whitespace the
unit is that line's first character mapped to tab or space; default
space.  The source stores the unit as a one-character string; we keep
the character. -/
def detectIndentUnit (lines : List (List Char)) : Char :=
  match lines.find? (fun l => decide (leadingWS l ≠ [])) with
  | some l =>
    match l with
    | [] => ' '
    | c :: _ => if c = '\t' then '\t' else ' '
  | none => ' '

/-- One step of the `lines.forEach` body of `parseScrapboxToTree`:
state is (nodes so far, ancestor stack with its top first, count of
created nodes for the id generator). -/
def parseLineStep (gen : ℕ → String) (indentUnit : Char)
    (st : List TreeNode × List (ℕ × String) × ℕ) (line : List Char) :
    List TreeNode × List (ℕ × String) × ℕ :=
  let indentStr := leadingWS line
  let depth := if 0 < indentStr.length then (splitOnChar indentUnit indentStr).length - 1 else 0
  let id := gen st.2.2
  let stack := st.2.1.dropWhile (fun e => decide (depth ≤ e.1))
  let parentId := match stack with
    | [] => ROOT_NODE_ID
    | e :: _ => e.2
  let order : ℚ := (st.1.filter (fun n => decide (n.parentId = some parentId))).length
  (st.1 ++ [⟨id, String.mk (trimChars line), some parentId, order⟩],
    (depth, id) :: stack, st.2.2 + 1)

/-- `parseScrapboxToTree`, with the `generateId` collaborator (UUID v4
in `idGenerator.ts`) supplied as a deterministic id stream `gen`. -/
def parseScrapboxToTree (gen : ℕ → String) (text : String) : List TreeNode :=
  let lines := (splitOnChar '\n' text.data).filter (fun l => decide (trimChars l ≠ []))
  if lines.length = 0 then [⟨ROOT_NODE_ID, ROOT_NODE_ID, none, 0⟩]
  else
    (lines.foldl (parseLineStep gen (detectIndentUnit lines))
      ([⟨ROOT_NODE_ID, ROOT_NODE_ID, none, 0⟩], [], 0)).1

/-- `formatTreeToScrapbox`: one line per node of `getFlattenedOrder`,
indented with one space per `getDepth` level, joined by newlines. -/
def formatTreeToScrapbox (nodes : List TreeNode) : String :=
  String.intercalate (String.mk ['\n'])
    ((getFlattenedOrder nodes).map (fun node =>
      String.mk (List.replicate (getDepth nodes node.id) ' ') ++ node.text))

/-! ### Drop-target resolution (`src/visualization/dragCalculator.ts`, V2)

`calculateNodeWidth` is the pure estimate of `layoutCalculator.ts`
(`max(80, 8 * label.length + 32)`); `NODE_HEIGHT` is 40. -/

/-- Rectangle of a rendered node as used by the drag calculator. -/
structure NodeRect where
  id : String
  x : ℚ
  y : ℚ
  label : String
deriving DecidableEq

/-- `NODE_HEIGHT` from `layoutCalculator.ts`. -/
def NODE_HEIGHT : ℚ := 40

/-- `calculateNodeWidth` from `layoutCalculator.ts`. -/
def calculateNodeWidth (text : String) : ℚ :=
  max 80 (text.length * 8 + 32)

/-- Insert mode of a drop. -/
inductive InsertMode where
  | before
  | child
  | after
deriving DecidableEq

/-- `DropTarget` result record. -/
structure DropTarget where
  parentId : Option String
  insertOrder : Option ℚ
  insertMode : Option InsertMode
  targetNodeId : Option String
deriving DecidableEq

/-- `determineInsertModeV2`: left targets always become `child`; a
same-column target splits at its vertical center. -/
def determineInsertModeV2 (draggedCenterY : ℚ) (targetNode : NodeRect)
    (isLeftTarget : Bool) : InsertMode :=
  if isLeftTarget then .child
  else if draggedCenterY < targetNode.y + NODE_HEIGHT / 2 then .before
  else .after

/-- Right edge of a candidate rectangle. -/
def nodeRight (c : NodeRect) : ℚ := c.x + calculateNodeWidth c.label

/-- Vertical center of a rectangle. -/
def centerY (c : NodeRect) : ℚ := c.y + NODE_HEIGHT / 2

/-- The left-node class of `determineDropTargetV2`: right edge strictly
left of the dragged node's left edge. -/
def leftNodesOf (dragged : NodeRect) (candidates : List NodeRect) : List NodeRect :=
  candidates.filter (fun c => decide (nodeRight c < dragged.x))

/-- The complement class, called the same-column nodes by the source. -/
def sameColumnNodesOf (dragged : NodeRect) (candidates : List NodeRect) : List NodeRect :=
  candidates.filter (fun c => ! decide (nodeRight c < dragged.x))

/-- `|draggedCenterY − candidateCenterY|` of the selection loops. -/
def deltaY (dragged c : NodeRect) : ℚ := |centerY dragged - centerY c|

/-- `|node.x − dragged.x|` — the tie-break key of the selection loops. -/
def deltaX (dragged c : NodeRect) : ℚ := |c.x - dragged.x|

/-- One iteration of the selection loops of `determineDropTargetV2`:
replace the running target when `|ΔY|` strictly drops, or ties while
`|node.x - dragged.x|` strictly drops.  The `none` state models the
initial `minDeltaY = Infinity`. -/
def selStep (dragged : NodeRect) (st : Option (NodeRect × ℚ × ℚ)) (node : NodeRect) :
    Option (NodeRect × ℚ × ℚ) :=
  match st with
  | none => some (node, deltaY dragged node, deltaX dragged node)
  | some (t, my, mx) =>
    if deltaY dragged node < my ∨ (deltaY dragged node = my ∧ deltaX dragged node < mx) then
      some (node, deltaY dragged node, deltaX dragged node)
    else some (t, my, mx)

/-- What the claim's minimization selects from a pool: a member whose
`|ΔY|` is minimal, with minimal `|ΔX|` among the `|ΔY|` ties. -/
def isMinChoice (dragged : NodeRect) (pool : List NodeRect) (t : NodeRect) : Prop :=
  t ∈ pool ∧ (∀ u ∈ pool, deltaY dragged t ≤ deltaY dragged u) ∧
    ∀ u ∈ pool, deltaY dragged u = deltaY dragged t → deltaX dragged t ≤ deltaX dragged u

/-- `determineDropTargetV2` from `dragCalculator.ts`. -/
def determineDropTargetV2 (dragged : NodeRect) (candidates : List NodeRect) : DropTarget :=
  if candidates = [] then ⟨none, none, none, none⟩
  else
    let pick :=
      match (sameColumnNodesOf dragged candidates).foldl (selStep dragged) none with
      | some p => some p
      | none => (leftNodesOf dragged candidates).foldl (selStep dragged) none
    match pick with
    | none => ⟨none, none, none, none⟩
    | some (t, _, _) =>
      ⟨some t.id, none,
        some (determineInsertModeV2 (centerY dragged) t
          (decide (t ∈ leftNodesOf dragged candidates))),
        some t.id⟩

/-- The same-column class as the specification words it: candidates
whose horizontal range overlaps the dragged node's.  This definition
follows the spec text (claim C6), not the source, and is compared with
the source's class. -/
def overlapColumnNodesOf (dragged : NodeRect) (candidates : List NodeRect) : List NodeRect :=
  candidates.filter (fun c =>
    decide (dragged.x ≤ nodeRight c) && decide (c.x ≤ nodeRight dragged))

/-- Drop-target resolution as claim C6 words it: partition into
left-nodes and overlap-based same-column nodes, then the same
minimization.  Follows the spec's words, for comparison with
`determineDropTargetV2`. -/
def claimedDropTargetV2 (dragged : NodeRect) (candidates : List NodeRect) : DropTarget :=
  if candidates = [] then ⟨none, none, none, none⟩
  else
    let pick :=
      match (overlapColumnNodesOf dragged candidates).foldl (selStep dragged) none with
      | some p => some p
      | none => (leftNodesOf dragged candidates).foldl (selStep dragged) none
    match pick with
    | none => ⟨none, none, none, none⟩
    | some (t, _, _) =>
      ⟨some t.id, none,
        some (determineInsertModeV2 (centerY dragged) t
          (decide (t ∈ leftNodesOf dragged candidates))),
        some t.id⟩

/-! ### History-managing store (the zustand `treeStore` with undo/redo)

The store keeps the node snapshot together with bounded `past` and
`future` stacks of snapshots (`MAX_HISTORY_SIZE = 50`).  `selectedNodeId`
and the persistence subscription play no part in the claims and are not
modelled. -/

/-- `MAX_HISTORY_SIZE` of the store. -/
def MAX_HISTORY_SIZE : ℕ := 50

/-- Store state: current snapshot plus undo and redo stacks. -/
structure StoreState where
  nodes : List TreeNode
  past : List (List TreeNode)
  future : List (List TreeNode)
deriving DecidableEq

/-- `[...past, snapshot].slice(-MAX_HISTORY_SIZE)`. -/
def pushTrim (past : List (List TreeNode)) (snapshot : List TreeNode) :
    List (List TreeNode) :=
  (past ++ [snapshot]).drop ((past ++ [snapshot]).length - MAX_HISTORY_SIZE)

/-- `canUndo`. -/
def canUndo (s : StoreState) : Bool := decide (0 < s.past.length)

/-- `canRedo`. -/
def canRedo (s : StoreState) : Bool := decide (0 < s.future.length)

/-- The store actions the claims quantify over.  `addAfter` carries the
id produced by the `generateId` collaborator. -/
inductive Action where
  | indent (id : String)
  | outdent (id : String)
  | addAfter (afterId : String) (newId : String)
  | remove (id : String)
  | move (nodeId : String) (newParentId : Option String) (insertOrder : Option ℚ)
  | moveBefore (nodeId targetNodeId : String)
  | moveAfter (nodeId targetNodeId : String)
  | moveAsFirstChild (nodeId targetNodeId : String)
  | undo
  | redo
deriving DecidableEq

/-- The common `if (result) set({nodes: result, past: push, future: []})`
shape of the fallible structural edits. -/
def applyEdit (s : StoreState) (result : Option (List TreeNode)) : StoreState :=
  match result with
  | none => s
  | some r => ⟨r, pushTrim s.past s.nodes, []⟩

/-- One store action, exactly as the store performs it. -/
def stepAction (s : StoreState) : Action → StoreState
  | .indent id => applyEdit s (indentNode s.nodes id)
  | .outdent id => applyEdit s (outdentNode s.nodes id)
  | .addAfter afterId newId =>
    ⟨addNodeAfter s.nodes afterId ⟨newId, "", none, 0⟩, pushTrim s.past s.nodes, []⟩
  | .remove id =>
    if id = ROOT_NODE_ID then s
    else ⟨deleteNode s.nodes id, pushTrim s.past s.nodes, []⟩
  | .move nodeId newParentId insertOrder =>
    applyEdit s (moveNode s.nodes nodeId newParentId insertOrder)
  | .moveBefore nodeId targetNodeId => applyEdit s (moveNodeBefore s.nodes nodeId targetNodeId)
  | .moveAfter nodeId targetNodeId => applyEdit s (moveNodeAfter s.nodes nodeId targetNodeId)
  | .moveAsFirstChild nodeId targetNodeId =>
    applyEdit s (moveNodeAsFirstChild s.nodes nodeId targetNodeId)
  | .undo =>
    match s.past.getLast? with
    | none => s
    | some prev =>
      ⟨prev, s.past.dropLast, (s.nodes :: s.future).take MAX_HISTORY_SIZE⟩
  | .redo =>
    match s.future with
    | [] => s
    | next :: rest => ⟨next, pushTrim s.past s.nodes, rest⟩

/-- Run a sequence of store actions. -/
def runActions (s : StoreState) (acts : List Action) : StoreState :=
  acts.foldl stepAction s

/-- The structural edits (everything except undo/redo). -/
def isStructEdit : Action → Bool
  | .undo => false
  | .redo => false
  | _ => true

/-- Whether a structural edit is applied in state `s` — i.e. whether the
store records it: the fallible operations must succeed, `remove` must
not target the sentinel, `addAfter` always applies. -/
def appliedEditB (s : StoreState) : Action → Bool
  | .indent id => (indentNode s.nodes id).isSome
  | .outdent id => (outdentNode s.nodes id).isSome
  | .addAfter _ _ => true
  | .remove id => decide (id ≠ ROOT_NODE_ID)
  | .move nodeId newParentId insertOrder => (moveNode s.nodes nodeId newParentId insertOrder).isSome
  | .moveBefore nodeId targetNodeId => (moveNodeBefore s.nodes nodeId targetNodeId).isSome
  | .moveAfter nodeId targetNodeId => (moveNodeAfter s.nodes nodeId targetNodeId).isSome
  | .moveAsFirstChild nodeId targetNodeId =>
    (moveNodeAsFirstChild s.nodes nodeId targetNodeId).isSome
  | .undo => false
  | .redo => false

/-- A trace of structural edits each of which is applied in the state it
meets. -/
def appliedTraceB (s : StoreState) : List Action → Bool
  | [] => true
  | a :: rest => appliedEditB s a && appliedTraceB (stepAction s a) rest

/-- Both history stacks within capacity. -/
def boundedHistory (s : StoreState) : Prop :=
  s.past.length ≤ MAX_HISTORY_SIZE ∧ s.future.length ≤ MAX_HISTORY_SIZE

instance (s : StoreState) : Decidable (boundedHistory s) := by
  unfold boundedHistory; infer_instance

/-! ### Structural invariants -/

/-- Fueled walk up the parent chain: `true` when the chain from `x`
reaches the sentinel (id `ROOT_NODE_ID`, `parentId` null) within the
given number of lookups. -/
def parentChainOkF (nodes : List TreeNode) : ℕ → String → Bool
  | 0, _ => false
  | fuel + 1, x =>
    match nodes.find? (fun n => decide (n.id = x)) with
    | none => false
    | some n =>
      match n.parentId with
      | none => decide (n.id = ROOT_NODE_ID)
      | some p => parentChainOkF nodes fuel p

/-- The structural invariants of spec §3: distinct ids, `parentId` null
exactly on the sentinel, the sentinel present, and every parent chain
reaching the sentinel within `nodes.length` lookups. -/
def Forest (nodes : List TreeNode) : Prop :=
  (nodes.map (fun n => n.id)).Nodup ∧
  (∀ n ∈ nodes, n.parentId = none → n.id = ROOT_NODE_ID) ∧
  (∃ r ∈ nodes, r.id = ROOT_NODE_ID ∧ r.parentId = none) ∧
  ∀ n ∈ nodes, parentChainOkF nodes nodes.length n.id = true

instance (nodes : List TreeNode) : Decidable (Forest nodes) := by
  unfold Forest; infer_instance

/-! ### Concrete fixtures used by evaluations and witnesses -/

/-- The six-node snapshot of the `getFlattenedOrder` and `getDepth`
tests in `operations.test.ts`. -/
def flatFixture : List TreeNode :=
  [⟨ROOT_NODE_ID, "__root__", none, 0⟩,
   ⟨"root1", "Root 1", some ROOT_NODE_ID, 0⟩,
   ⟨"child1-1", "Child 1.1", some ("root1"), 0⟩,
   ⟨"child1-2", "Child 1.2", some ("root1"), 1⟩,
   ⟨"root2", "Root 2", some ROOT_NODE_ID, 1⟩,
   ⟨"grandchild", "Grandchild", some ("child1-1"), 0⟩]

/-- Sentinel plus one top-level node. -/
def topLevelFixture : List TreeNode :=
  [⟨ROOT_NODE_ID, "__root__", none, 0⟩, ⟨"a", "A", some ROOT_NODE_ID, 0⟩]

/-- What `outdentNode topLevelFixture "a"` evaluates to. -/
def outdentResultFixture : List TreeNode :=
  [⟨ROOT_NODE_ID, "__root__", none, 0⟩, ⟨"a", "A", none, 1⟩]

/-- The five-line round-trip sample of spec §8. -/
def sampleText : String := "Root 1\n Child 1.1\n  Child 1.1.1\n Child 1.2\nRoot 2"

/-- A deterministic id stream standing in for the UUID generator. -/
def idStream : ℕ → String := fun k => "node" ++ toString k

/-- A forest whose top-level group holds fractional orders `0` and
`1/200` — the deleted node `X` sits before `Y`, but `X`'s promoted child
receives order `1/100 > 1/200` and lands after `Y`. -/
def delTieFixture : List TreeNode :=
  [⟨ROOT_NODE_ID, "__root__", none, 0⟩,
   ⟨"X", "X", some ROOT_NODE_ID, 0⟩,
   ⟨"Y", "Y", some ROOT_NODE_ID, 1/200⟩,
   ⟨"C", "C", some ("X"), 0⟩]

/-- A normalized forest for the delete witness: `X` (children `C1`,
`C2`) sits before `Y` under the sentinel. -/
def delDemoFixture : List TreeNode :=
  [⟨ROOT_NODE_ID, "__root__", none, 0⟩,
   ⟨"X", "X", some ROOT_NODE_ID, 0⟩,
   ⟨"Y", "Y", some ROOT_NODE_ID, 1⟩,
   ⟨"C1", "C1", some ("X"), 0⟩,
   ⟨"C2", "C2", some ("X"), 1⟩]

/-- Dragged rectangle at the origin (width 80, so right edge 80). -/
def dragDemo : NodeRect := ⟨"d", 0, 0, "D"⟩

/-- A candidate entirely to the right of the dragged rectangle: its
right edge is not left of the dragged left edge, yet the horizontal
ranges do not overlap. -/
def farRightCand : NodeRect := ⟨"c", 500, 0, "C"⟩

/-- Dragged rectangle for the drop-target witness. -/
def dragScen : NodeRect := ⟨"g", 100, 100, "drag"⟩

/-- A same-column candidate below the dragged rectangle. -/
def candBelow : NodeRect := ⟨"t", 100, 200, "target"⟩

/-- A candidate entirely in a column left of the dragged rectangle. -/
def leftCand : NodeRect := ⟨"L", -500, 0, "L"⟩

/-- Sentinel with a subtree: `a` above `b`. -/
def moveDemoFixture : List TreeNode :=
  [⟨ROOT_NODE_ID, "__root__", none, 0⟩,
   ⟨"a", "A", some ROOT_NODE_ID, 0⟩,
   ⟨"b", "B", some ("a"), 0⟩]

/-- Sentinel with two top-level siblings `a`, `b`. -/
def twoSiblingFixture : List TreeNode :=
  [⟨ROOT_NODE_ID, "__root__", none, 0⟩,
   ⟨"a", "A", some ROOT_NODE_ID, 0⟩,
   ⟨"b", "B", some ROOT_NODE_ID, 1⟩]

/-- Alternating indent/outdent edits of node `b` (2·n of them). -/
def altEdits : ℕ → List Action
  | 0 => []
  | n + 1 => Action.indent ("b") :: Action.outdent ("b") :: altEdits n

/-- Concrete store for the C10 witness. -/
def c10Demo : StoreState := ⟨twoSiblingFixture, [topLevelFixture], [moveDemoFixture]⟩

/-! ## Theorems -/

/-- C1: the acyclicity invariant is not preserved by the operation set.
On the invariant-respecting snapshot `topLevelFixture`, `outdentNode`
applied to the top-level node `a` succeeds (instead of failing as the
code's own test expects) and produces a snapshot with a second
null-parent node, from which the parent chain of `a` no longer
terminates at the sentinel. -/
theorem c1_outdent_breaks_acyclicity_eval :
    Forest topLevelFixture ∧
    outdentNode topLevelFixture ("a") = some outdentResultFixture ∧
    parentChainOkF outdentResultFixture outdentResultFixture.length ("a") = false ∧
    ¬ Forest outdentResultFixture := by
  refine ⟨by decide, by decide, by decide, by decide⟩

/-- C3: the five-line sample parses to the claimed structure (six nodes
plus the sentinel, with the claimed parent/child lists in order), but
`format (parse text)` emits a `__root__` line and shifts every depth by
one, so the round trip does not reproduce the input. -/
theorem c3_roundtrip_eval :
    (parseScrapboxToTree idStream sampleText).length = 6 ∧
    ((parseScrapboxToTree idStream sampleText).filter
      (fun n => decide (n.id = ROOT_NODE_ID))).length = 1 ∧
    ((getChildren (parseScrapboxToTree idStream sampleText) (some ROOT_NODE_ID)).map
      (fun n => n.text)) = ["Root 1", "Root 2"] ∧
    ((getChildren (parseScrapboxToTree idStream sampleText) (some ("node0"))).map
      (fun n => n.text)) = ["Child 1.1", "Child 1.2"] ∧
    ((getChildren (parseScrapboxToTree idStream sampleText) (some ("node1"))).map
      (fun n => n.text)) = ["Child 1.1.1"] ∧
    formatTreeToScrapbox (parseScrapboxToTree idStream sampleText) =
      "__root__\n Root 1\n  Child 1.1\n   Child 1.1.1\n  Child 1.2\n Root 2" ∧
    formatTreeToScrapbox (parseScrapboxToTree idStream sampleText) ≠ sampleText := by
  refine ⟨by decide, by decide, by decide, by decide, by decide, by decide, by decide⟩

/-- C4: on the snapshot of the code's own test, `getFlattenedOrder`
returns the sentinel as its first element — not the non-sentinel nodes
only, as the claim (and the test) state. -/
theorem c4_flattened_order_eval :
    ((getFlattenedOrder flatFixture).map (fun n => n.id)) =
      [ROOT_NODE_ID, "root1", "child1-1", "grandchild", "child1-2", "root2"] ∧
    ((getFlattenedOrder flatFixture).map (fun n => n.id)) ≠
      ["root1", "child1-1", "grandchild", "child1-2", "root2"] := by
  refine ⟨by decide, by decide⟩

/-- C5: on the snapshot of the code's own test, a direct child of the
sentinel gets depth 1 (not 0 as the claim and the test state); the
unknown-id case does return 0. -/
theorem c5_depth_eval :
    getDepth flatFixture ("root1") = 1 ∧
    getDepth flatFixture ("grandchild") = 3 ∧
    getDepth flatFixture ("missing") = 0 := by
  refine ⟨by decide, by decide, by decide⟩

/-- C6 counterexample: a candidate lying entirely to the right of the
dragged rectangle belongs to neither of the claim's two classes
(left-nodes / horizontally-overlapping same-column nodes), yet
`determineDropTargetV2` still classifies it as same-column and returns
it with mode `after`, while the algorithm the claim describes returns
the no-target result. -/
theorem c6_partition_counterexample :
    leftNodesOf dragDemo [farRightCand] = [] ∧
    overlapColumnNodesOf dragDemo [farRightCand] = [] ∧
    determineDropTargetV2 dragDemo [farRightCand] =
      ⟨some ("c"), none, some InsertMode.after, some ("c")⟩ ∧
    claimedDropTargetV2 dragDemo [farRightCand] = ⟨none, none, none, none⟩ ∧
    determineDropTargetV2 dragDemo [farRightCand] ≠
      claimedDropTargetV2 dragDemo [farRightCand] := by
  refine ⟨by decide, by decide, by decide, by decide, by decide⟩

/-- C8 counterexample: on the invariant-respecting snapshot
`delTieFixture` (top-level orders `0` and `1/200`), deleting `X`
promotes its child `C` with order `1/100`, which lands after the sibling
`Y` — not contiguously at the position where `X` used to sit, as the
claim states for every snapshot. -/
theorem c8_delete_position_counterexample :
    Forest delTieFixture ∧
    ((getChildren delTieFixture (some ROOT_NODE_ID)).map (fun n => n.id)) = ["X", "Y"] ∧
    ((getChildren delTieFixture (some ("X"))).map (fun n => n.id)) = ["C"] ∧
    ((getChildren (deleteNode delTieFixture ("X")) (some ROOT_NODE_ID)).map
      (fun n => n.id)) = ["Y", "C"] ∧
    ((getChildren (deleteNode delTieFixture ("X")) (some ROOT_NODE_ID)).map
      (fun n => n.id)) ≠ ["C", "Y"] := by
  refine ⟨by decide, by decide, by decide, by decide, by decide⟩

/-- C2: on every forest, `moveNode` returns the failure signal exactly
when the new parent is the moved node itself or one of its descendants;
in particular every descendant is rejected as a new parent. -/
theorem c2_moveNode_failure_iff :
    ∀ (nodes : List TreeNode) (nodeId : String) (newParentId : Option String)
      (insertOrder : Option ℚ), Forest nodes →
      ((moveNode nodes nodeId newParentId insertOrder = none ↔
          newParentId = some nodeId ∨
            ∃ p, newParentId = some p ∧ p ∈ getDescendantIds nodes nodeId) ∧
        ∀ B ∈ getDescendantIds nodes nodeId,
          moveNode nodes nodeId (some B) insertOrder = none) := by
  intro nodes nodeId newParentId insertOrder _
  constructor
  · cases newParentId with
    | none => simp [moveNode]
    | some p =>
      by_cases h1 : nodeId = p
      · subst h1; simp [moveNode]
      · by_cases h2 : p ∈ getDescendantIds nodes nodeId
        · simp [moveNode, h1, h2, Ne.symm h1]
        · simp [moveNode, h1, h2, Ne.symm h1]
  · intro B hB
    by_cases h1 : nodeId = B
    · subst h1; simp [moveNode]
    · simp [moveNode, h1, hB, Ne.symm h1]

/-- Length of a trimmed push: one more, capped at the capacity. -/
theorem pushTrim_length (past : List (List TreeNode)) (snap : List TreeNode) :
    (pushTrim past snap).length = min (past.length + 1) MAX_HISTORY_SIZE := by
  simp [pushTrim]
  omega

/-- An applied structural edit pushes the pre-edit snapshot (trimmed)
and clears the redo stack. -/
theorem stepAction_applied_past (s : StoreState) (a : Action)
    (ha : isStructEdit a = true) (happ : appliedEditB s a = true) :
    (stepAction s a).past = pushTrim s.past s.nodes ∧ (stepAction s a).future = [] := by
  cases a with
  | indent id =>
    obtain ⟨r, hr⟩ := Option.isSome_iff_exists.mp (by simpa [appliedEditB] using happ)
    simp [stepAction, applyEdit, hr]
  | outdent id =>
    obtain ⟨r, hr⟩ := Option.isSome_iff_exists.mp (by simpa [appliedEditB] using happ)
    simp [stepAction, applyEdit, hr]
  | addAfter afterId newId => simp [stepAction]
  | remove id =>
    have h : ¬ id = ROOT_NODE_ID := by simpa [appliedEditB] using happ
    simp [stepAction, h]
  | move nodeId newParentId insertOrder =>
    obtain ⟨r, hr⟩ := Option.isSome_iff_exists.mp (by simpa [appliedEditB] using happ)
    simp [stepAction, applyEdit, hr]
  | moveBefore nodeId targetNodeId =>
    obtain ⟨r, hr⟩ := Option.isSome_iff_exists.mp (by simpa [appliedEditB] using happ)
    simp [stepAction, applyEdit, hr]
  | moveAfter nodeId targetNodeId =>
    obtain ⟨r, hr⟩ := Option.isSome_iff_exists.mp (by simpa [appliedEditB] using happ)
    simp [stepAction, applyEdit, hr]
  | moveAsFirstChild nodeId targetNodeId =>
    obtain ⟨r, hr⟩ := Option.isSome_iff_exists.mp (by simpa [appliedEditB] using happ)
    simp [stepAction, applyEdit, hr]
  | undo => simp [isStructEdit] at ha
  | redo => simp [isStructEdit] at ha

/-- Every single store action keeps both stacks within capacity. -/
theorem stepAction_bounded (s : StoreState) (a : Action) (h : boundedHistory s) :
    boundedHistory (stepAction s a) := by
  obtain ⟨hp, hf⟩ := h
  have hpush : (pushTrim s.past s.nodes).length ≤ MAX_HISTORY_SIZE := by
    rw [pushTrim_length]; omega
  cases a with
  | indent id =>
    cases hr : indentNode s.nodes id with
    | none => exact ⟨by simpa [stepAction, applyEdit, hr] using hp,
        by simpa [stepAction, applyEdit, hr] using hf⟩
    | some r => exact ⟨by simpa [stepAction, applyEdit, hr] using hpush,
        by simp [stepAction, applyEdit, hr, boundedHistory]⟩
  | outdent id =>
    cases hr : outdentNode s.nodes id with
    | none => exact ⟨by simpa [stepAction, applyEdit, hr] using hp,
        by simpa [stepAction, applyEdit, hr] using hf⟩
    | some r => exact ⟨by simpa [stepAction, applyEdit, hr] using hpush,
        by simp [stepAction, applyEdit, hr, boundedHistory]⟩
  | addAfter afterId newId =>
    exact ⟨by simpa [stepAction] using hpush, by simp [stepAction]⟩
  | remove id =>
    by_cases hid : id = ROOT_NODE_ID
    · exact ⟨by simpa [stepAction, hid] using hp, by simpa [stepAction, hid] using hf⟩
    · exact ⟨by simpa [stepAction, hid] using hpush, by simp [stepAction, hid]⟩
  | move nodeId newParentId insertOrder =>
    cases hr : moveNode s.nodes nodeId newParentId insertOrder with
    | none => exact ⟨by simpa [stepAction, applyEdit, hr] using hp,
        by simpa [stepAction, applyEdit, hr] using hf⟩
    | some r => exact ⟨by simpa [stepAction, applyEdit, hr] using hpush,
        by simp [stepAction, applyEdit, hr, boundedHistory]⟩
  | moveBefore nodeId targetNodeId =>
    cases hr : moveNodeBefore s.nodes nodeId targetNodeId with
    | none => exact ⟨by simpa [stepAction, applyEdit, hr] using hp,
        by simpa [stepAction, applyEdit, hr] using hf⟩
    | some r => exact ⟨by simpa [stepAction, applyEdit, hr] using hpush,
        by simp [stepAction, applyEdit, hr, boundedHistory]⟩
  | moveAfter nodeId targetNodeId =>
    cases hr : moveNodeAfter s.nodes nodeId targetNodeId with
    | none => exact ⟨by simpa [stepAction, applyEdit, hr] using hp,
        by simpa [stepAction, applyEdit, hr] using hf⟩
    | some r => exact ⟨by simpa [stepAction, applyEdit, hr] using hpush,
        by simp [stepAction, applyEdit, hr, boundedHistory]⟩
  | moveAsFirstChild nodeId targetNodeId =>
    cases hr : moveNodeAsFirstChild s.nodes nodeId targetNodeId with
    | none => exact ⟨by simpa [stepAction, applyEdit, hr] using hp,
        by simpa [stepAction, applyEdit, hr] using hf⟩
    | some r => exact ⟨by simpa [stepAction, applyEdit, hr] using hpush,
        by simp [stepAction, applyEdit, hr, boundedHistory]⟩
  | undo =>
    cases hl : s.past.getLast? with
    | none => exact ⟨by simpa [stepAction, hl] using hp, by simpa [stepAction, hl] using hf⟩
    | some prev =>
      refine ⟨?_, ?_⟩
      · have : s.past.dropLast.length ≤ MAX_HISTORY_SIZE := by
          rw [List.length_dropLast]; omega
        simpa [stepAction, hl] using this
      · have : ((s.nodes :: s.future).take MAX_HISTORY_SIZE).length ≤ MAX_HISTORY_SIZE := by
          simpa using List.length_take_le MAX_HISTORY_SIZE (s.nodes :: s.future)
        simpa [stepAction, hl] using this
  | redo =>
    cases hfe : s.future with
    | nil => exact ⟨by simpa [stepAction, hfe] using hp, by simpa [stepAction, hfe] using hf⟩
    | cons next rest =>
      refine ⟨by simpa [stepAction, hfe] using hpush, ?_⟩
      have : rest.length ≤ MAX_HISTORY_SIZE := by
        have := hf
        rw [hfe] at this
        simpa using Nat.le_of_succ_le this
      simpa [stepAction, hfe] using this

/-- Any action sequence keeps both stacks within capacity. -/
theorem runActions_bounded (acts : List Action) :
    ∀ s : StoreState, boundedHistory s → boundedHistory (runActions s acts) := by
  induction acts with
  | nil => intro s h; simpa [runActions] using h
  | cons a rest ih =>
    intro s h
    have h1 := stepAction_bounded s a h
    simpa [runActions] using ih (stepAction s a) h1

/-- Past-stack length along a trace of applied structural edits. -/
theorem runActions_applied_past_length (acts : List Action) :
    ∀ s : StoreState, appliedTraceB s acts = true → (∀ a ∈ acts, isStructEdit a = true) →
      s.past.length ≤ MAX_HISTORY_SIZE →
      (runActions s acts).past.length = min (s.past.length + acts.length) MAX_HISTORY_SIZE := by
  induction acts with
  | nil =>
    intro s _ _ hb
    simp [runActions]
    omega
  | cons a rest ih =>
    intro s htr hedits hb
    have h1 : appliedEditB s a = true := by
      have := htr
      simp [appliedTraceB] at this
      exact this.1
    have h2 : appliedTraceB (stepAction s a) rest = true := by
      have := htr
      simp [appliedTraceB] at this
      exact this.2
    have h3 := stepAction_applied_past s a (hedits a (by simp)) h1
    have h4 : (stepAction s a).past.length = min (s.past.length + 1) MAX_HISTORY_SIZE := by
      rw [h3.1, pushTrim_length]
    have h5 : (stepAction s a).past.length ≤ MAX_HISTORY_SIZE := by omega
    have h6 := ih (stepAction s a) h2 (fun b hb => hedits b (by simp [hb])) h5
    have : runActions s (a :: rest) = runActions (stepAction s a) rest := by
      simp [runActions]
    rw [this, h6, h4]
    simp [List.length_cons]
    omega

/-- One undo shortens the past stack by one. -/
theorem stepAction_undo_past_length (s : StoreState) :
    (stepAction s Action.undo).past.length = s.past.length - 1 := by
  cases hl : s.past.getLast? with
  | none =>
    have : s.past = [] := by simpa using hl
    simp [stepAction, hl, this]
  | some prev => simp [stepAction, hl]

/-- After as many undos as the past stack holds, the past stack is
empty. -/
theorem runActions_undo_drain (n : ℕ) :
    ∀ s : StoreState, s.past.length = n →
      (runActions s (List.replicate n Action.undo)).past.length = 0 := by
  induction n with
  | zero => intro s h; simpa [runActions] using h
  | succ n ih =>
    intro s h
    have h1 : (stepAction s Action.undo).past.length = n := by
      rw [stepAction_undo_past_length, h]
      omega
    have : runActions s (List.replicate (n + 1) Action.undo) =
        runActions (stepAction s Action.undo) (List.replicate n Action.undo) := by
      simp [runActions, List.replicate_succ]
    rw [this]
    exact ih (stepAction s Action.undo) h1

/-- C7: history management with capacity 50: (1) every applied
structural edit pushes the pre-edit snapshot (trimmed to capacity) onto
`past` and empties `future`; (2) along any action sequence from a
bounded state both stacks stay within 50 entries; (3) after 55 applied
structural edits from an empty past stack, `past` holds exactly 50
entries; (4) after as many consecutive undos as `past` holds, `canUndo`
is false. -/
theorem c7_history_bounds :
    (∀ (s : StoreState) (a : Action), isStructEdit a = true → appliedEditB s a = true →
        (stepAction s a).past = pushTrim s.past s.nodes ∧ (stepAction s a).future = []) ∧
    (∀ (s : StoreState) (acts : List Action), boundedHistory s →
        boundedHistory (runActions s acts)) ∧
    (∀ (s : StoreState) (acts : List Action), s.past = [] → appliedTraceB s acts = true →
        (∀ a ∈ acts, isStructEdit a = true) → acts.length = MAX_HISTORY_SIZE + 5 →
        (runActions s acts).past.length = MAX_HISTORY_SIZE) ∧
    (∀ s : StoreState,
        canUndo (runActions s (List.replicate s.past.length Action.undo)) = false) := by
  refine ⟨stepAction_applied_past, fun s acts h => runActions_bounded acts s h, ?_, ?_⟩
  · intro s acts hpe htr hed hlen
    have h0 : s.past.length ≤ MAX_HISTORY_SIZE := by simp [hpe, MAX_HISTORY_SIZE]
    have := runActions_applied_past_length acts s htr hed h0
    rw [this, hpe, hlen]
    simp [MAX_HISTORY_SIZE]
  · intro s
    have := runActions_undo_drain s.past.length s rfl
    simp [canUndo, this]

/-- C7 witness: the four parts evaluated on concrete stores — an applied
indent on `twoSiblingFixture`, boundedness of a short run, the 55-edit
trace filling `past` to exactly 50 entries, and draining a two-entry
past stack. -/
theorem c7_history_bounds_witness :
    ((stepAction ⟨twoSiblingFixture, [], []⟩ (Action.indent ("b"))).past =
        pushTrim [] twoSiblingFixture ∧
      (stepAction ⟨twoSiblingFixture, [], []⟩ (Action.indent ("b"))).future = []) ∧
    boundedHistory (runActions ⟨twoSiblingFixture, [], []⟩
      [Action.indent ("b"), Action.undo, Action.redo]) ∧
    (runActions ⟨twoSiblingFixture, [], []⟩
        (altEdits 27 ++ [Action.indent ("b")])).past.length = MAX_HISTORY_SIZE ∧
    canUndo (runActions ⟨topLevelFixture, [topLevelFixture, topLevelFixture], []⟩
      (List.replicate 2 Action.undo)) = false := by
  refine ⟨c7_history_bounds.1 ⟨twoSiblingFixture, [], []⟩ (Action.indent ("b"))
      (by decide) (by decide),
    c7_history_bounds.2.1 ⟨twoSiblingFixture, [], []⟩ _ (by decide),
    c7_history_bounds.2.2.1 ⟨twoSiblingFixture, [], []⟩ (altEdits 27 ++ [Action.indent ("b")])
      (by decide) (by decide) (by decide) (by decide),
    c7_history_bounds.2.2.2 ⟨topLevelFixture, [topLevelFixture, topLevelFixture], []⟩⟩

/-- C10: from any store state with a non-empty (and in-capacity) past
stack, undo followed by redo restores the node snapshot and the past
stack exactly; the future stack is also restored whenever it held fewer
than 50 entries. -/
theorem c10_undo_redo_roundtrip :
    ∀ s : StoreState, s.past ≠ [] → s.past.length ≤ MAX_HISTORY_SIZE →
      (stepAction (stepAction s Action.undo) Action.redo).nodes = s.nodes ∧
      (stepAction (stepAction s Action.undo) Action.redo).past = s.past ∧
      (s.future.length < MAX_HISTORY_SIZE →
        (stepAction (stepAction s Action.undo) Action.redo).future = s.future) := by
  intro s hne hlen
  obtain ⟨L, x, hLx⟩ := (List.eq_nil_or_concat s.past).resolve_left hne
  have h1 : stepAction s Action.undo =
      ⟨x, L, (s.nodes :: s.future).take MAX_HISTORY_SIZE⟩ := by
    simp [stepAction, hLx]
  have htake : (s.nodes :: s.future).take MAX_HISTORY_SIZE =
      s.nodes :: s.future.take 49 := by
    show (s.nodes :: s.future).take (49 + 1) = s.nodes :: s.future.take 49
    simp [List.take_succ_cons]
  have h2 : stepAction (stepAction s Action.undo) Action.redo =
      ⟨s.nodes, pushTrim L x, s.future.take 49⟩ := by
    rw [h1]
    simp [stepAction, htake]
  have hM : MAX_HISTORY_SIZE = 50 := rfl
  have hLlen : L.length + 1 ≤ MAX_HISTORY_SIZE := by
    have := hlen
    rw [hLx] at this
    simpa using this
  have hdrop : L.length + 1 - MAX_HISTORY_SIZE = 0 := by omega
  have h3 : pushTrim L x = s.past := by
    rw [hLx]
    simp [pushTrim, hdrop]
  refine ⟨by rw [h2], by rw [h2, h3], ?_⟩
  intro hfut
  rw [h2]
  show s.future.take 49 = s.future
  rw [hM] at hfut
  exact List.take_of_length_le (by omega)

/-- C10 witness: the undo/redo round trip evaluated on `c10Demo`. -/
theorem c10_undo_redo_roundtrip_witness :
    (stepAction (stepAction c10Demo Action.undo) Action.redo).nodes = c10Demo.nodes ∧
    (stepAction (stepAction c10Demo Action.undo) Action.redo).past = c10Demo.past ∧
    (c10Demo.future.length < MAX_HISTORY_SIZE →
      (stepAction (stepAction c10Demo Action.undo) Action.redo).future = c10Demo.future) :=
  c10_undo_redo_roundtrip c10Demo (by decide) (by decide)

/-- Elements strictly before the index `findIdx?` returns fail the
predicate. -/
theorem findIdx?_earlier_false {α : Type} (p : α → Bool) :
    ∀ (l : List α) (j k : ℕ) (y : α),
      l.findIdx? p = some j → l.get? k = some y → k < j → p y = false := by
  intro l
  induction l with
  | nil =>
    intro j k y hj
    simp at hj
  | cons a t ih =>
    intro j k y hj hk hkj
    rw [List.findIdx?_cons] at hj
    by_cases hpa : p a = true
    · rw [if_pos hpa] at hj
      have : j = 0 := by simpa using hj.symm
      omega
    · rw [if_neg hpa] at hj
      rw [List.findIdx?_succ] at hj
      obtain ⟨j1, hj1, hj2⟩ := Option.map_eq_some.mp hj
      cases k with
      | zero =>
        have : a = y := by simpa using hk
        rw [← this]
        simpa using hpa
      | succ k =>
        have hk1 : t.get? k = some y := by simpa using hk
        exact ih j1 k y hj1 hk1 (by omega)

/-- Inserting into a list is a permutation of consing. -/
theorem insertByOrder_perm (x : TreeNode) (l : List TreeNode) :
    List.Perm (insertByOrder x l) (x :: l) := by
  induction l with
  | nil => simp [insertByOrder]
  | cons y ys ih =>
    by_cases h : x.order ≤ y.order
    · simp [insertByOrder, h]
    · have h1 : List.Perm (y :: insertByOrder x ys) (y :: x :: ys) := ih.cons y
      have h2 : List.Perm (y :: x :: ys) (x :: y :: ys) := List.Perm.swap x y ys
      simpa [insertByOrder, h] using h1.trans h2

/-- The stable sort permutes its input. -/
theorem sortByOrder_perm (l : List TreeNode) : List.Perm (sortByOrder l) l := by
  induction l with
  | nil => simp [sortByOrder]
  | cons x xs ih =>
    have h1 := insertByOrder_perm x (sortByOrder xs)
    exact h1.trans (ih.cons x)

/-- Membership in the sorted list. -/
theorem mem_sortByOrder {x : TreeNode} {l : List TreeNode} :
    x ∈ sortByOrder l ↔ x ∈ l :=
  (sortByOrder_perm l).mem_iff

/-- Membership in a sibling group. -/
theorem mem_getChildren {n : TreeNode} {nodes : List TreeNode} {p : Option String} :
    n ∈ getChildren nodes p ↔ n ∈ nodes ∧ n.parentId = p := by
  simp [getChildren, mem_sortByOrder, List.mem_filter]

/-- `normAssign` keeps the id. -/
theorem normAssign_id (ids : List String) (n : TreeNode) : (normAssign ids n).id = n.id := by
  unfold normAssign
  cases lastIdx ids n.id <;> rfl

/-- `normAssign` keeps the parent. -/
theorem normAssign_parentId (ids : List String) (n : TreeNode) :
    (normAssign ids n).parentId = n.parentId := by
  unfold normAssign
  cases lastIdx ids n.id <;> rfl

/-- `normAssign` keeps the text. -/
theorem normAssign_text (ids : List String) (n : TreeNode) :
    (normAssign ids n).text = n.text := by
  unfold normAssign
  cases lastIdx ids n.id <;> rfl

/-- Every member of a normalized list shares id and parent with a
member of the input. -/
theorem mem_normalizeOrders {nodes : List TreeNode} {p : Option String} {n : TreeNode}
    (h : n ∈ normalizeOrders nodes p) :
    ∃ m ∈ nodes, n.id = m.id ∧ n.parentId = m.parentId := by
  obtain ⟨m, hm, rfl⟩ := List.mem_map.mp h
  exact ⟨m, hm, normAssign_id _ m, normAssign_parentId _ m⟩

/-- Finding by id commutes with an id-preserving map. -/
theorem find?_id_map (u : TreeNode → TreeNode) (hu : ∀ n, (u n).id = n.id)
    (nodes : List TreeNode) (i : String) :
    (nodes.map u).find? (fun n => decide (n.id = i)) =
      (nodes.find? (fun n => decide (n.id = i))).map u := by
  rw [List.find?_map u nodes]
  have : ((fun n : TreeNode => decide (n.id = i)) ∘ u) =
      (fun n : TreeNode => decide (n.id = i)) := by
    funext n
    simp [Function.comp, hu]
  rw [this]

/-- With distinct ids, finding a member by its own id returns that
member. -/
theorem find?_eq_of_mem_nodup {nodes : List TreeNode}
    (hN : (nodes.map (fun n => n.id)).Nodup) {s : TreeNode} (hs : s ∈ nodes) :
    nodes.find? (fun n => decide (n.id = s.id)) = some s := by
  induction nodes with
  | nil => cases hs
  | cons h t ih =>
    rcases List.mem_cons.mp hs with rfl | hst
    · exact List.find?_cons_of_pos t (by simp)
    · have hN' : (t.map (fun n => n.id)).Nodup := (List.nodup_cons.mp hN).2
      have hhn : h.id ∉ t.map (fun n => n.id) := (List.nodup_cons.mp hN).1
      have hne : ¬ h.id = s.id := by
        intro he
        exact hhn (he ▸ List.mem_map.mpr ⟨s, hst, rfl⟩)
      rw [List.find?_cons_of_neg t (by simpa using hne)]
      exact ih hN' hst

/-- C9: on any snapshot with distinct non-empty ids, a node with a
preceding sibling (so `indentNode` succeeds) gets its original parent
back when `indentNode` is followed by `outdentNode`. -/
theorem c9_indent_outdent_restores_parent :
    ∀ (nodes : List TreeNode) (xid : String) (X prev : TreeNode) (i : ℕ),
      (nodes.map (fun n => n.id)).Nodup →
      (∀ n ∈ nodes, n.id ≠ "") →
      nodes.find? (fun n => decide (n.id = xid)) = some X →
      (getChildren nodes X.parentId).findIdx? (fun s => decide (s.id = xid)) = some (i + 1) →
      (getChildren nodes X.parentId).get? i = some prev →
      ∃ r2, (indentNode nodes xid).bind (fun r => outdentNode r xid) = some r2 ∧
        ∀ n ∈ r2, n.id = xid → n.parentId = X.parentId := by
  intro nodes xid X prev i hN hne hfind hidx hget
  have hXid : X.id = xid := by simpa using List.find?_some hfind
  have hprevG : prev ∈ getChildren nodes X.parentId := List.get?_mem hget
  have hprevmem : prev ∈ nodes := (mem_getChildren.mp hprevG).1
  have hprevpar : prev.parentId = X.parentId := (mem_getChildren.mp hprevG).2
  have hprevnid : prev.id ≠ xid := by
    intro heq
    have := findIdx?_earlier_false _ _ _ _ _ hidx hget (Nat.lt_succ_self i)
    rw [heq] at this
    simp at this
  have hprevne : prev.id ≠ "" := hne prev hprevmem
  -- the indent step
  have hind : indentNode nodes xid =
      some (nodes.map (fun n =>
        if n.id = xid then
          { n with parentId := some prev.id,
                   order := nextOrder (getChildren nodes (some prev.id)) }
        else n)) := by
    unfold indentNode
    simp only [hfind, hidx, hget]
  set u : TreeNode → TreeNode := fun n =>
    if n.id = xid then
      { n with parentId := some prev.id,
               order := nextOrder (getChildren nodes (some prev.id)) }
    else n with hu
  set v : TreeNode → TreeNode := fun n =>
    if n.id = xid then
      { n with parentId := prev.parentId, order := prev.order + 1/2 }
    else n with hv
  have huid : ∀ n, (u n).id = n.id := by
    intro n
    by_cases h : n.id = xid <;> simp [hu, h]
  have hvid : ∀ n, (v n).id = n.id := by
    intro n
    by_cases h : n.id = xid <;> simp [hv, h]
  -- looking up the moved node in the image
  have hfind2 : (nodes.map u).find? (fun n => decide (n.id = xid)) = some (u X) := by
    rw [find?_id_map u huid, hfind]
    rfl
  have huX : (u X).parentId = some prev.id := by simp [hu, hXid]
  have hfindprev : (nodes.map u).find? (fun n => decide (n.id = prev.id)) = some prev := by
    rw [find?_id_map u huid, find?_eq_of_mem_nodup hN hprevmem]
    simp [hu, hprevnid]
  -- the outdent step
  have hout : outdentNode (nodes.map u) xid =
      some (normalizeOrders ((nodes.map u).map v) prev.parentId) := by
    unfold outdentNode
    simp only [hfind2, huX, if_neg hprevne, hfindprev]
  refine ⟨normalizeOrders ((nodes.map u).map v) prev.parentId, ?_, ?_⟩
  · rw [hind]
    show outdentNode (nodes.map u) xid =
      some (normalizeOrders ((nodes.map u).map v) prev.parentId)
    exact hout
  · intro n hnmem hnid
    obtain ⟨m, hm, hid, hpar⟩ := mem_normalizeOrders hnmem
    obtain ⟨k, _, rfl⟩ := List.mem_map.mp hm
    have hkid : k.id = xid := by
      rw [← hvid k, ← hid]
      exact hnid
    have hvk : (v k).parentId = prev.parentId := by simp [hv, hkid]
    rw [hpar, hvk, hprevpar]

/-- C9 witness: indent-then-outdent of `b` on `twoSiblingFixture`
restores its parent (the sentinel). -/
theorem c9_indent_outdent_restores_parent_witness :
    ∃ r2, (indentNode twoSiblingFixture ("b")).bind
        (fun r => outdentNode r ("b")) = some r2 ∧
      ∀ n ∈ r2, n.id = "b" → n.parentId = some ROOT_NODE_ID :=
  c9_indent_outdent_restores_parent twoSiblingFixture ("b")
    ⟨"b", "B", some ROOT_NODE_ID, 1⟩ ⟨"a", "A", some ROOT_NODE_ID, 0⟩ 0
    (by decide) (by decide) (by decide) (by decide) (by decide)

/-- The selection fold, started on a seed, ends on the lexicographic
minimizer of `(|ΔY|, |ΔX|)` over the seed and the traversed list. -/
theorem selStep_foldl_some (dragged : NodeRect) (l : List NodeRect) :
    ∀ s : NodeRect,
      ∃ t, l.foldl (selStep dragged) (some (s, deltaY dragged s, deltaX dragged s)) =
          some (t, deltaY dragged t, deltaX dragged t) ∧ t ∈ s :: l ∧
        ∀ u ∈ s :: l, deltaY dragged t ≤ deltaY dragged u ∧
          (deltaY dragged u = deltaY dragged t → deltaX dragged t ≤ deltaX dragged u) := by
  induction l with
  | nil =>
    intro s
    refine ⟨s, rfl, by simp, ?_⟩
    intro u hu
    have : u = s := by simpa using hu
    subst this
    exact ⟨le_refl _, fun _ => le_refl _⟩
  | cons vnode rest ih =>
    intro s
    by_cases hbet : deltaY dragged vnode < deltaY dragged s ∨
        (deltaY dragged vnode = deltaY dragged s ∧ deltaX dragged vnode < deltaX dragged s)
    · have hstep : selStep dragged (some (s, deltaY dragged s, deltaX dragged s)) vnode =
          some (vnode, deltaY dragged vnode, deltaX dragged vnode) := by
        simp [selStep, hbet]
      obtain ⟨t, h1, h2, h3⟩ := ih vnode
      refine ⟨t, ?_, ?_, ?_⟩
      · rw [List.foldl_cons, hstep]
        exact h1
      · rcases List.mem_cons.mp h2 with rfl | h2'
        · simp
        · simp [List.mem_cons.mpr (Or.inr h2')]
      · intro u hu
        rcases List.mem_cons.mp hu with rfl | hu'
        · have htv := h3 vnode (by simp)
          rcases hbet with hlt | ⟨heq, hdx⟩
          · refine ⟨le_of_lt (lt_of_le_of_lt htv.1 hlt), ?_⟩
            intro habs
            exfalso
            have : deltaY dragged t < deltaY dragged u := lt_of_le_of_lt htv.1 hlt
            rw [habs] at this
            exact lt_irrefl _ this
          · refine ⟨heq ▸ htv.1, ?_⟩
            intro hue
            have h4 : deltaY dragged vnode = deltaY dragged t := heq.trans hue
            exact le_trans (htv.2 h4) (le_of_lt hdx)
        · exact h3 u (by simpa using hu')
    · have hstep : selStep dragged (some (s, deltaY dragged s, deltaX dragged s)) vnode =
          some (s, deltaY dragged s, deltaX dragged s) := by
        simp only [selStep]
        rw [if_neg hbet]
      push_neg at hbet
      obtain ⟨t, h1, h2, h3⟩ := ih s
      refine ⟨t, ?_, ?_, ?_⟩
      · rw [List.foldl_cons, hstep]
        exact h1
      · rcases List.mem_cons.mp h2 with rfl | h2'
        · simp
        · simp [List.mem_cons.mpr (Or.inr h2')]
      · intro u hu
        have hts := h3 s (by simp)
        rcases List.mem_cons.mp hu with rfl | hu'
        · exact h3 u (by simp)
        · rcases List.mem_cons.mp hu' with rfl | hu''
          · refine ⟨le_trans hts.1 hbet.1, ?_⟩
            intro hue
            have hst : deltaY dragged t ≤ deltaY dragged s := hts.1
            have hseq : deltaY dragged s = deltaY dragged t := by
              have h5 : deltaY dragged s ≤ deltaY dragged t := hue ▸ hbet.1
              exact le_antisymm h5 hst
            have h6 : deltaX dragged t ≤ deltaX dragged s := hts.2 hseq
            have h7 : deltaX dragged s ≤ deltaX dragged u :=
              hbet.2 (hue.trans hseq.symm)
            exact le_trans h6 h7
          · exact h3 u (by simp [hu''])

/-- The selection fold from the empty state on a non-empty pool returns
the pool's minimizer. -/
theorem selStep_foldl_none (dragged : NodeRect) (l : List NodeRect) (hl : l ≠ []) :
    ∃ t, l.foldl (selStep dragged) none = some (t, deltaY dragged t, deltaX dragged t) ∧
      isMinChoice dragged l t := by
  cases l with
  | nil => exact absurd rfl hl
  | cons s rest =>
    have hfirst : selStep dragged none s = some (s, deltaY dragged s, deltaX dragged s) := rfl
    obtain ⟨t, h1, h2, h3⟩ := selStep_foldl_some dragged rest s
    refine ⟨t, ?_, h2, fun u hu => (h3 u hu).1, fun u hu => (h3 u hu).2⟩
    rw [List.foldl_cons, hfirst]
    exact h1

/-- Members of the left class satisfy the left test; members of the
complement class fail it. -/
theorem mem_leftNodesOf {dragged c : NodeRect} {cands : List NodeRect} :
    c ∈ leftNodesOf dragged cands ↔ c ∈ cands ∧ nodeRight c < dragged.x := by
  simp [leftNodesOf, List.mem_filter]

/-- Membership in the source's same-column class. -/
theorem mem_sameColumnNodesOf {dragged c : NodeRect} {cands : List NodeRect} :
    c ∈ sameColumnNodesOf dragged cands ↔ c ∈ cands ∧ ¬ nodeRight c < dragged.x := by
  simp [sameColumnNodesOf, List.mem_filter]

/-- C6 (amended): `determineDropTargetV2` partitions the candidates into
left-nodes (right edge strictly left of the dragged left edge) and the
remaining nodes, which the source treats as same-column; when the
same-column class is non-empty it returns a `(|ΔY|, |ΔX|)`-minimizer of
that class with mode `before` when the dragged center is strictly above
the target's center and `after` otherwise; when only left-nodes exist it
returns their minimizer with mode `child`; an empty candidate list
yields the no-target result. -/
theorem c6_droptarget_characterization :
    ∀ (dragged : NodeRect) (cands : List NodeRect),
      (cands = [] → determineDropTargetV2 dragged cands = ⟨none, none, none, none⟩) ∧
      (sameColumnNodesOf dragged cands ≠ [] →
        ∃ t, isMinChoice dragged (sameColumnNodesOf dragged cands) t ∧
          determineDropTargetV2 dragged cands =
            ⟨some t.id, none,
              some (if centerY dragged < centerY t then InsertMode.before else InsertMode.after),
              some t.id⟩) ∧
      (sameColumnNodesOf dragged cands = [] → leftNodesOf dragged cands ≠ [] →
        ∃ t, isMinChoice dragged (leftNodesOf dragged cands) t ∧
          determineDropTargetV2 dragged cands =
            ⟨some t.id, none, some InsertMode.child, some t.id⟩) := by
  intro dragged cands
  refine ⟨fun h => by simp [determineDropTargetV2, h], ?_, ?_⟩
  · intro hsc
    obtain ⟨t, hfold, hmin⟩ := selStep_foldl_none dragged _ hsc
    have htas : t ∈ sameColumnNodesOf dragged cands := hmin.1
    have hcne : cands ≠ [] := by
      intro h
      apply hsc
      simp [sameColumnNodesOf, h]
    have htnl : ¬ t ∈ leftNodesOf dragged cands := by
      intro habs
      exact (mem_sameColumnNodesOf.mp htas).2 (mem_leftNodesOf.mp habs).2
    refine ⟨t, hmin, ?_⟩
    unfold determineDropTargetV2
    rw [if_neg hcne, hfold]
    simp [determineInsertModeV2, htnl, centerY]
  · intro hsc hlf
    obtain ⟨t, hfold, hmin⟩ := selStep_foldl_none dragged _ hlf
    have htl : t ∈ leftNodesOf dragged cands := hmin.1
    have hcne : cands ≠ [] := by
      intro h
      apply hlf
      simp [leftNodesOf, h]
    refine ⟨t, hmin, ?_⟩
    unfold determineDropTargetV2
    rw [if_neg hcne, hsc]
    simp only [List.foldl_nil]
    rw [hfold]
    simp [determineInsertModeV2, htl]

/-- C6 witness: the three branches evaluated on concrete rectangles —
no candidates, one same-column candidate below the dragged node
(mode before/after by centers), and one left candidate (mode child). -/
theorem c6_droptarget_characterization_witness :
    (determineDropTargetV2 dragScen [] = ⟨none, none, none, none⟩) ∧
    (∃ t, isMinChoice dragScen (sameColumnNodesOf dragScen [candBelow]) t ∧
      determineDropTargetV2 dragScen [candBelow] =
        ⟨some t.id, none,
          some (if centerY dragScen < centerY t then InsertMode.before else InsertMode.after),
          some t.id⟩) ∧
    (∃ t, isMinChoice dragScen (leftNodesOf dragScen [leftCand]) t ∧
      determineDropTargetV2 dragScen [leftCand] =
        ⟨some t.id, none, some InsertMode.child, some t.id⟩) :=
  ⟨(c6_droptarget_characterization dragScen []).1 rfl,
    (c6_droptarget_characterization dragScen [candBelow]).2.1 (by decide),
    (c6_droptarget_characterization dragScen [leftCand]).2.2 (by decide) (by decide)⟩

/-- Inserting into a sorted list keeps it sorted. -/
theorem insertByOrder_sorted (x : TreeNode) (l : List TreeNode)
    (h : List.Pairwise (fun a b => a.order ≤ b.order) l) :
    List.Pairwise (fun a b => a.order ≤ b.order) (insertByOrder x l) := by
  induction l with
  | nil => simp [insertByOrder]
  | cons y ys ih =>
    obtain ⟨hy, hys⟩ := List.pairwise_cons.mp h
    by_cases hle : x.order ≤ y.order
    · simp only [insertByOrder, if_pos hle]
      refine List.pairwise_cons.mpr ⟨?_, h⟩
      intro b hb
      rcases List.mem_cons.mp hb with rfl | hb'
      · exact hle
      · exact le_trans hle (hy b hb')
    · simp only [insertByOrder, if_neg hle]
      refine List.pairwise_cons.mpr ⟨?_, ih hys⟩
      intro b hb
      rcases List.mem_cons.mp ((insertByOrder_perm x ys).mem_iff.mp hb) with rfl | hb'
      · exact le_of_lt (lt_of_not_le hle)
      · exact hy b hb'

/-- The stable sort sorts. -/
theorem sortByOrder_sorted (l : List TreeNode) :
    List.Pairwise (fun a b => a.order ≤ b.order) (sortByOrder l) := by
  induction l with
  | nil => simp [sortByOrder]
  | cons x xs ih => exact insertByOrder_sorted x (sortByOrder xs) ih

/-- A `≤`-sorted list with pairwise-distinct orders is `<`-sorted. -/
theorem pairwise_lt_of_le_nodup (l : List TreeNode)
    (h1 : List.Pairwise (fun a b => a.order ≤ b.order) l)
    (h2 : (l.map (fun n => n.order)).Nodup) :
    List.Pairwise (fun a b => a.order < b.order) l := by
  have h3 : List.Pairwise (fun a b : TreeNode => a.order ≠ b.order) l :=
    List.pairwise_map.mp h2
  exact (h1.and h3).imp (fun h => lt_of_le_of_ne h.1 h.2)

/-- Two `<`-sorted permutations of each other are equal. -/
theorem eq_of_perm_of_pairwise_lt (l₁ l₂ : List TreeNode) (hp : List.Perm l₁ l₂)
    (h1 : List.Pairwise (fun a b => a.order < b.order) l₁)
    (h2 : List.Pairwise (fun a b => a.order < b.order) l₂) : l₁ = l₂ := by
  haveI : IsAntisymm TreeNode (fun a b => a.order < b.order) :=
    ⟨fun _ _ hab hba => absurd hba (lt_asymm hab)⟩
  exact List.eq_of_perm_of_sorted hp h1 h2

/-- `lastIdx` misses absent keys. -/
theorem lastIdx_eq_none {l : List String} {s : String} (h : s ∉ l) : lastIdx l s = none := by
  induction l with
  | nil => rfl
  | cons x xs ih =>
    have h1 : s ∉ xs := fun hx => h (List.mem_cons.mpr (Or.inr hx))
    have h2 : ¬ x = s := fun he => h (he ▸ List.mem_cons_self x xs)
    simp only [lastIdx, ih h1]
    rw [if_neg h2]

/-- On a duplicate-free list, `lastIdx` finds the position of each
element. -/
theorem lastIdx_get (l : List String) (hN : l.Nodup) :
    ∀ (j : ℕ) (s : String), l.get? j = some s → lastIdx l s = some j := by
  induction l with
  | nil => intro j s h; simp at h
  | cons x xs ih =>
    intro j s hj
    cases j with
    | zero =>
      have hxs : x = s := by simpa using hj
      subst hxs
      simp [lastIdx, lastIdx_eq_none (List.nodup_cons.mp hN).1]
    | succ j =>
      have hj' : xs.get? j = some s := by simpa using hj
      simp only [lastIdx, ih (List.nodup_cons.mp hN).2 j s hj']

/-- `normAssign` with the id list of `D` applied over `D` itself gives
each element its position as order. -/
theorem normAssign_get_order (D : List TreeNode)
    (hDN : (D.map (fun n => n.id)).Nodup) (i : ℕ) (n : TreeNode)
    (hi : D.get? i = some n) :
    (normAssign (D.map (fun n => n.id)) n).order = (i : ℚ) := by
  have hidget : (D.map (fun n => n.id)).get? i = some n.id := by
    rw [List.get?_map, hi]
    rfl
  have := lastIdx_get (D.map (fun n => n.id)) hDN i n.id hidget
  simp [normAssign, this]

/-- Sorting the `normAssign`-image of any permutation of `D` (keyed by
`D`'s own ids) recovers the image of `D` itself: the assigned orders are
the positions in `D`. -/
theorem sortByOrder_map_assign (D M : List TreeNode) (hperm : List.Perm M D)
    (hDN : (D.map (fun n => n.id)).Nodup) :
    sortByOrder (M.map (normAssign (D.map (fun n => n.id)))) =
      D.map (normAssign (D.map (fun n => n.id))) := by
  have hDlt : List.Pairwise (fun a b => a.order < b.order)
      (D.map (normAssign (D.map (fun n => n.id)))) := by
    rw [List.pairwise_iff_get]
    intro i j hij
    have hgi : (D.map (normAssign (D.map (fun n => n.id)))).get i =
        normAssign (D.map (fun n => n.id)) (D.get ⟨i.1, by simpa using i.2⟩) := by
      simp [List.get_map]
    have hgj : (D.map (normAssign (D.map (fun n => n.id)))).get j =
        normAssign (D.map (fun n => n.id)) (D.get ⟨j.1, by simpa using j.2⟩) := by
      simp [List.get_map]
    rw [hgi, hgj,
      normAssign_get_order D hDN i.1 _ (List.get?_eq_get (by simpa using i.2)),
      normAssign_get_order D hDN j.1 _ (List.get?_eq_get (by simpa using j.2))]
    exact_mod_cast hij
  have hmperm : List.Perm (sortByOrder (M.map (normAssign (D.map (fun n => n.id)))))
      (D.map (normAssign (D.map (fun n => n.id)))) :=
    (sortByOrder_perm _).trans (hperm.map _)
  have hsortlt : List.Pairwise (fun a b => a.order < b.order)
      (sortByOrder (M.map (normAssign (D.map (fun n => n.id))))) := by
    refine pairwise_lt_of_le_nodup _ (sortByOrder_sorted _) ?_
    have h1 : ((D.map (normAssign (D.map (fun n => n.id)))).map
        (fun n => n.order)).Nodup := by
      have := hDlt
      have h2 : List.Pairwise (fun a b : ℚ => a ≠ b)
          ((D.map (normAssign (D.map (fun n => n.id)))).map (fun n => n.order)) :=
        List.pairwise_map.mpr (this.imp (fun h => ne_of_lt h))
      exact h2
    exact ((hmperm.map (fun n => n.order)).nodup_iff).mpr h1
  exact eq_of_perm_of_pairwise_lt _ _ hmperm hsortlt hDlt

/-- Normalizing a sibling group does not change which ids the group
displays, nor their order. -/
theorem getChildren_normalizeOrders_ids (l : List TreeNode) (P : Option String)
    (hN : (l.map (fun n => n.id)).Nodup) :
    (getChildren (normalizeOrders l P) P).map (fun n => n.id) =
      (getChildren l P).map (fun n => n.id) := by
  have hGN : ((l.filter (fun m => decide (m.parentId = P))).map (fun n => n.id)).Nodup :=
    hN.sublist ((List.filter_sublist l).map _)
  have hDN : ((sortByOrder (l.filter (fun m => decide (m.parentId = P)))).map
      (fun n => n.id)).Nodup :=
    (((sortByOrder_perm _).map (fun n => n.id)).nodup_iff).mpr hGN
  have hcomp : ((fun n : TreeNode => decide (n.parentId = P)) ∘
      normAssign (groupIds l P)) = (fun n : TreeNode => decide (n.parentId = P)) := by
    funext n
    simp [Function.comp, normAssign_parentId]
  have hfil : (normalizeOrders l P).filter (fun n => decide (n.parentId = P)) =
      (l.filter (fun n => decide (n.parentId = P))).map (normAssign (groupIds l P)) := by
    rw [normalizeOrders, List.filter_map, hcomp]
  have hkey : getChildren (normalizeOrders l P) P =
      (sortByOrder (l.filter (fun m => decide (m.parentId = P)))).map
        (normAssign (groupIds l P)) := by
    rw [getChildren, hfil]
    exact sortByOrder_map_assign _ _ (sortByOrder_perm _).symm hDN
  rw [hkey]
  show ((sortByOrder (l.filter (fun m => decide (m.parentId = P)))).map
      (normAssign (groupIds l P))).map (fun n => n.id) = _
  rw [List.map_map, getChildren]
  congr 1
  funext n
  simp [Function.comp, normAssign_id]

/-- Two distinct integer-valued rationals are at least 1 apart. -/
theorem int_gap {a b : ℚ} (ha : a.den = 1) (hb : b.den = 1) (h : a < b) : a + 1 ≤ b := by
  have ha' : (a.num : ℚ) = a := (Rat.den_eq_one_iff a).mp ha
  have hb' : (b.num : ℚ) = b := (Rat.den_eq_one_iff b).mp hb
  have h1 : (a.num : ℚ) < (b.num : ℚ) := by rw [ha', hb']; exact h
  have h2 : a.num < b.num := by exact_mod_cast h1
  have h3 : a.num + 1 ≤ b.num := h2
  calc a + 1 = (a.num : ℚ) + 1 := by rw [ha']
    _ ≤ (b.num : ℚ) := by exact_mod_cast h3
    _ = b := hb'

/-- The display of the deleted node's sibling group after `deleteNode`:
the former children (in their display order) replace the deleted node at
its former display position, provided the two affected groups carry
distinct integer orders with the children's below 99. -/
theorem delete_display_splice (nodes : List TreeNode) (xid : String) (X : TreeNode)
    (hfind : nodes.find? (fun n => decide (n.id = xid)) = some X)
    (hN : (nodes.map (fun n => n.id)).Nodup)
    (hXpar : X.parentId ≠ some xid)
    (h3 : ∀ s ∈ getChildren nodes X.parentId, s.order.den = 1)
    (h4 : ((getChildren nodes X.parentId).map (fun n => n.order)).Nodup)
    (h5 : ∀ c ∈ getChildren nodes (some xid), c.order.den = 1 ∧ 0 ≤ c.order ∧ c.order ≤ 98)
    (h6 : ((getChildren nodes (some xid)).map (fun n => n.order)).Nodup) :
    ∃ bs as, getChildren nodes X.parentId = bs ++ X :: as ∧
      (getChildren (deleteNode nodes xid) X.parentId).map (fun n => n.id) =
        bs.map (fun n => n.id) ++ (getChildren nodes (some xid)).map (fun n => n.id) ++
          as.map (fun n => n.id) := by
  have hdel : deleteNode nodes xid =
      normalizeOrders
        ((nodes.filter (delKeep xid)) ++ (nodes.filter (delKids xid)).map (promote X))
        X.parentId := by
    unfold deleteNode
    simp only [hfind]
  have hXmem : X ∈ nodes := List.mem_of_find?_eq_some hfind
  have hXid : X.id = xid := by simpa using List.find?_some hfind
  have hXsibs : X ∈ getChildren nodes X.parentId := mem_getChildren.mpr ⟨hXmem, rfl⟩
  obtain ⟨bs, as, hsplit⟩ := List.append_of_mem hXsibs
  refine ⟨bs, as, hsplit, ?_⟩
  have hfiltN : ((nodes.filter (fun n => decide (n.parentId = X.parentId))).map
      (fun n => n.id)).Nodup := hN.sublist ((List.filter_sublist nodes).map _)
  have hsibsN : ((getChildren nodes X.parentId).map (fun n => n.id)).Nodup :=
    ((sortByOrder_perm _).map _).nodup_iff.mpr hfiltN
  have hsibs_lt : List.Pairwise (fun a b : TreeNode => a.order < b.order)
      (getChildren nodes X.parentId) :=
    pairwise_lt_of_le_nodup _ (sortByOrder_sorted _) h4
  have hmem_sibs : ∀ y, y ∈ bs ∨ y ∈ as → y ∈ getChildren nodes X.parentId := by
    intro y hy
    rw [hsplit]
    rcases hy with h | h
    · exact List.mem_append.mpr (Or.inl h)
    · exact List.mem_append.mpr (Or.inr (List.mem_cons.mpr (Or.inr h)))
  have hsplit_lt : List.Pairwise (fun a b : TreeNode => a.order < b.order)
      (bs ++ X :: as) := hsplit ▸ hsibs_lt
  obtain ⟨hbs_lt, hXas_lt, hcross⟩ := List.pairwise_append.mp hsplit_lt
  obtain ⟨hXa, has_lt⟩ := List.pairwise_cons.mp hXas_lt
  have hids_split : ((bs ++ X :: as).map (fun n => n.id)).Nodup := hsplit ▸ hsibsN
  rw [List.map_append] at hids_split
  obtain ⟨hnd1, hnd2, hdisjsibs⟩ := List.nodup_append.mp hids_split
  have hbs_id : ∀ b ∈ bs, b.id ≠ xid := by
    intro b hb heq
    exact hdisjsibs (List.mem_map.mpr ⟨b, hb, heq⟩)
      (List.mem_map.mpr ⟨X, List.mem_cons_self _ _, hXid⟩)
  have has_id : ∀ a ∈ as, a.id ≠ xid := by
    intro a ha heq
    have hX2 : (∀ x ∈ as, ¬x.id = X.id) ∧ (as.map (fun n => n.id)).Nodup := by
      simpa using hnd2
    exact hX2.1 a ha (by rw [heq, hXid])
  have hkids_lt : List.Pairwise (fun a b : TreeNode => a.order < b.order)
      (getChildren nodes (some xid)) :=
    pairwise_lt_of_le_nodup _ (sortByOrder_sorted _) h6
  have hM_lt : List.Pairwise (fun a b : TreeNode => a.order < b.order)
      ((getChildren nodes (some xid)).map (promote X)) := by
    apply List.pairwise_map.mpr
    apply hkids_lt.imp
    intro a b hab
    show X.order + (a.order + 1) * (1/100) < X.order + (b.order + 1) * (1/100)
    linarith
  have hM_bounds : ∀ m ∈ (getChildren nodes (some xid)).map (promote X),
      X.order < m.order ∧ m.order < X.order + 1 := by
    intro m hm
    obtain ⟨c, hc, rfl⟩ := List.mem_map.mp hm
    obtain ⟨_, hc0, hc98⟩ := h5 c hc
    constructor
    · show X.order < X.order + (c.order + 1) * (1/100)
      linarith
    · show X.order + (c.order + 1) * (1/100) < X.order + 1
      linarith
  have hXden : X.order.den = 1 := h3 X hXsibs
  have has_ge : ∀ a ∈ as, X.order + 1 ≤ a.order := fun a ha =>
    int_gap hXden (h3 a (hmem_sibs a (Or.inr ha))) (hXa a ha)
  have hDD_lt : List.Pairwise (fun a b : TreeNode => a.order < b.order)
      (bs ++ ((getChildren nodes (some xid)).map (promote X) ++ as)) := by
    rw [List.pairwise_append]
    refine ⟨hbs_lt, ?_, ?_⟩
    · rw [List.pairwise_append]
      refine ⟨hM_lt, has_lt, ?_⟩
      intro m hm a ha
      have h7 := (hM_bounds m hm).2
      have h8 := has_ge a ha
      linarith
    · intro b hb y hy
      have hbX : b.order < X.order := hcross b hb X (List.mem_cons_self _ _)
      rcases List.mem_append.mp hy with hyM | hyas
      · have := (hM_bounds y hyM).1
        linarith
      · exact hcross b hb y (List.mem_cons.mpr (Or.inr hyas))
  have hgroup : ((nodes.filter (delKeep xid)) ++
      (nodes.filter (delKids xid)).map (promote X)).filter
        (fun n => decide (n.parentId = X.parentId)) =
      (nodes.filter (delKeep xid)).filter (fun n => decide (n.parentId = X.parentId)) ++
        (nodes.filter (delKids xid)).map (promote X) := by
    rw [List.filter_append]
    congr 1
    apply List.filter_eq_self.mpr
    intro x hx
    obtain ⟨c, _, rfl⟩ := List.mem_map.mp hx
    simp [promote]
  have hq_on_sibs : (bs ++ X :: as).filter (delKeep xid) = bs ++ as := by
    rw [List.filter_append]
    have h9 : bs.filter (delKeep xid) = bs := by
      apply List.filter_eq_self.mpr
      intro b hb
      have h10 : b.parentId = X.parentId := (mem_getChildren.mp (hmem_sibs b (Or.inl hb))).2
      have h11 : b.parentId ≠ some xid := by
        rw [h10]
        exact hXpar
      simp [delKeep, hbs_id b hb, h11]
    have h13 : delKeep xid X = false := by simp [delKeep, hXid]
    have h12 : (X :: as).filter (delKeep xid) = as := by
      rw [List.filter_cons, h13]
      simp only [Bool.false_eq_true, if_false]
      apply List.filter_eq_self.mpr
      intro a ha
      have h10 : a.parentId = X.parentId := (mem_getChildren.mp (hmem_sibs a (Or.inr ha))).2
      have h11 : a.parentId ≠ some xid := by
        rw [h10]
        exact hXpar
      simp [delKeep, has_id a ha, h11]
    rw [h9, h12]
  have hFpr_perm : List.Perm
      ((nodes.filter (delKeep xid)).filter (fun n => decide (n.parentId = X.parentId)))
      (bs ++ as) := by
    have e1 : (nodes.filter (delKeep xid)).filter
        (fun n => decide (n.parentId = X.parentId)) =
        (nodes.filter (fun n => decide (n.parentId = X.parentId))).filter (delKeep xid) := by
      rw [List.filter_filter, List.filter_filter]
      apply List.filter_congr
      intro a _
      exact Bool.and_comm _ _
    rw [e1, ← hq_on_sibs, ← hsplit]
    exact ((sortByOrder_perm _).symm).filter _
  have hkids_perm : List.Perm ((nodes.filter (delKids xid)).map (promote X))
      ((getChildren nodes (some xid)).map (promote X)) :=
    ((sortByOrder_perm _).symm).map _
  have hgroup_perm : List.Perm
      (((nodes.filter (delKeep xid)) ++
        (nodes.filter (delKids xid)).map (promote X)).filter
          (fun n => decide (n.parentId = X.parentId)))
      (bs ++ ((getChildren nodes (some xid)).map (promote X) ++ as)) := by
    rw [hgroup]
    refine (hFpr_perm.append hkids_perm).trans ?_
    rw [List.append_assoc]
    exact List.Perm.append_left bs List.perm_append_comm
  have e4 : ((nodes.filter (delKids xid)).map (promote X)).map (fun n => n.id) =
      (nodes.filter (delKids xid)).map (fun n => n.id) := by
    rw [List.map_map]
    congr 1
  have hdisj : List.Disjoint ((nodes.filter (delKeep xid)).map (fun n => n.id))
      (((nodes.filter (delKids xid)).map (promote X)).map (fun n => n.id)) := by
    intro a ha hb
    obtain ⟨y, hy, hya⟩ := List.mem_map.mp ha
    rw [e4] at hb
    obtain ⟨c, hc, hca⟩ := List.mem_map.mp hb
    have hy1 := List.mem_filter.mp hy
    have hc1 := List.mem_filter.mp hc
    have hyc : y = c := List.inj_on_of_nodup_map hN hy1.1 hc1.1 (by rw [hya, hca])
    have hy2 : y.parentId ≠ some xid := by
      have := hy1.2
      simp [delKeep] at this
      exact this.2
    have hc2 : c.parentId = some xid := by
      have := hc1.2
      simpa [delKids] using this
    rw [hyc] at hy2
    exact hy2 hc2
  have hnewN : (((nodes.filter (delKeep xid)) ++
      (nodes.filter (delKids xid)).map (promote X)).map (fun n => n.id)).Nodup := by
    rw [List.map_append]
    refine List.nodup_append.mpr ⟨hN.sublist ((List.filter_sublist nodes).map _), ?_, hdisj⟩
    rw [e4]
    exact hN.sublist ((List.filter_sublist nodes).map _)
  have hsortnew : sortByOrder ((((nodes.filter (delKeep xid)) ++
      (nodes.filter (delKids xid)).map (promote X))).filter
        (fun n => decide (n.parentId = X.parentId))) =
      bs ++ ((getChildren nodes (some xid)).map (promote X) ++ as) := by
    apply eq_of_perm_of_pairwise_lt
    · exact (sortByOrder_perm _).trans hgroup_perm
    · apply pairwise_lt_of_le_nodup _ (sortByOrder_sorted _)
      apply (((sortByOrder_perm _).trans hgroup_perm).map (fun n => n.order)).nodup_iff.mpr
      exact List.pairwise_map.mpr (hDD_lt.imp (fun h => ne_of_lt h))
    · exact hDD_lt
  rw [hdel, getChildren_normalizeOrders_ids _ _ hnewN]
  have e6 : getChildren ((nodes.filter (delKeep xid)) ++
      (nodes.filter (delKids xid)).map (promote X)) X.parentId =
      bs ++ ((getChildren nodes (some xid)).map (promote X) ++ as) := hsortnew
  rw [e6]
  have e7 : ((getChildren nodes (some xid)).map (promote X)).map (fun n => n.id) =
      (getChildren nodes (some xid)).map (fun n => n.id) := by
    rw [List.map_map]
    congr 1
  rw [List.map_append, List.map_append, e7, ← List.append_assoc]

/-- C8 (amended): on a snapshot with distinct ids whose affected sibling
groups carry pairwise-distinct integer orders (the deleted node's
children between 0 and 98), `deleteNode` removes exactly the named node,
reparents its direct children to its former parent, and splices them —
in their display order — contiguously at the display position the
deleted node held; an absent id leaves the snapshot unchanged. -/
theorem c8_delete_promotes_children :
    (∀ (nodes : List TreeNode) (xid : String) (X : TreeNode),
      nodes.find? (fun n => decide (n.id = xid)) = some X →
      (nodes.map (fun n => n.id)).Nodup →
      xid ≠ ROOT_NODE_ID →
      X.parentId ≠ some xid →
      (∀ s ∈ getChildren nodes X.parentId, s.order.den = 1) →
      ((getChildren nodes X.parentId).map (fun n => n.order)).Nodup →
      (∀ c ∈ getChildren nodes (some xid),
        c.order.den = 1 ∧ 0 ≤ c.order ∧ c.order ≤ 98) →
      ((getChildren nodes (some xid)).map (fun n => n.order)).Nodup →
      ((∀ n ∈ deleteNode nodes xid, n.id ≠ xid) ∧
        (∀ y : String, y ≠ xid →
          ((∃ n ∈ deleteNode nodes xid, n.id = y) ↔ ∃ n ∈ nodes, n.id = y)) ∧
        (∀ n ∈ deleteNode nodes xid,
          (∃ c ∈ getChildren nodes (some xid), c.id = n.id) → n.parentId = X.parentId) ∧
        (∃ bs as, getChildren nodes X.parentId = bs ++ X :: as ∧
          (getChildren (deleteNode nodes xid) X.parentId).map (fun n => n.id) =
            bs.map (fun n => n.id) ++
              (getChildren nodes (some xid)).map (fun n => n.id) ++
              as.map (fun n => n.id)))) ∧
    (∀ (nodes : List TreeNode) (xid : String),
      nodes.find? (fun n => decide (n.id = xid)) = none → deleteNode nodes xid = nodes) := by
  constructor
  · intro nodes xid X hfind hN _ hXpar h3 h4 h5 h6
    have hdel : deleteNode nodes xid =
        normalizeOrders
          ((nodes.filter (delKeep xid)) ++ (nodes.filter (delKids xid)).map (promote X))
          X.parentId := by
      unfold deleteNode
      simp only [hfind]
    have hXmem : X ∈ nodes := List.mem_of_find?_eq_some hfind
    have hXid : X.id = xid := by simpa using List.find?_some hfind
    refine ⟨?_, ?_, ?_, delete_display_splice nodes xid X hfind hN hXpar h3 h4 h5 h6⟩
    · -- the deleted id is gone
      intro n hn heq
      rw [hdel] at hn
      obtain ⟨m, hm, hid, _⟩ := mem_normalizeOrders hn
      rcases List.mem_append.mp hm with hmF | hmK
      · have h7 := (List.mem_filter.mp hmF).2
        simp [delKeep] at h7
        exact h7.1 (by rw [← hid, heq])
      · obtain ⟨c, hc, rfl⟩ := List.mem_map.mp hmK
        have hc1 := List.mem_filter.mp hc
        have hcid : c.id = xid := by
          have : n.id = c.id := hid
          rw [← this, heq]
        have hcX : c = X := List.inj_on_of_nodup_map hN hc1.1 hXmem (by rw [hcid, hXid])
        have hc2 : c.parentId = some xid := by simpa [delKids] using hc1.2
        rw [hcX] at hc2
        exact hXpar hc2
    · -- every other id is preserved
      intro y hy
      constructor
      · rintro ⟨n, hn, hny⟩
        rw [hdel] at hn
        obtain ⟨m, hm, hid, _⟩ := mem_normalizeOrders hn
        rcases List.mem_append.mp hm with hmF | hmK
        · exact ⟨m, (List.mem_filter.mp hmF).1, by rw [← hid, hny]⟩
        · obtain ⟨c, hc, rfl⟩ := List.mem_map.mp hmK
          refine ⟨c, (List.mem_filter.mp hc).1, ?_⟩
          have : n.id = c.id := hid
          rw [← this, hny]
      · rintro ⟨n, hn, hny⟩
        rw [hdel]
        by_cases hnp : n.parentId = some xid
        · refine ⟨normAssign (groupIds _ X.parentId) (promote X n), List.mem_map.mpr
            ⟨promote X n, List.mem_append.mpr (Or.inr (List.mem_map.mpr
              ⟨n, List.mem_filter.mpr ⟨hn, by simp [delKids, hnp]⟩, rfl⟩)), rfl⟩, ?_⟩
          rw [normAssign_id]
          exact hny
        · have hnid : ¬ n.id = xid := fun he => hy (by rw [← hny, he])
          refine ⟨normAssign (groupIds _ X.parentId) n, List.mem_map.mpr
            ⟨n, List.mem_append.mpr (Or.inl (List.mem_filter.mpr
              ⟨hn, by simp [delKeep, hnp, hnid]⟩)), rfl⟩, ?_⟩
          rw [normAssign_id]
          exact hny
    · -- the former children now hang from the former parent
      intro n hn hex
      obtain ⟨c, hcD, hcid⟩ := hex
      have hcK : c ∈ nodes ∧ c.parentId = some xid := mem_getChildren.mp hcD
      rw [hdel] at hn
      obtain ⟨m, hm, hid, hpar⟩ := mem_normalizeOrders hn
      rcases List.mem_append.mp hm with hmF | hmK
      · exfalso
        have hm1 := List.mem_filter.mp hmF
        have hmc : m = c :=
          List.inj_on_of_nodup_map hN hm1.1 hcK.1 (by rw [← hid, hcid])
        have h7 := hm1.2
        simp [delKeep] at h7
        rw [hmc] at h7
        exact h7.2 hcK.2
      · obtain ⟨c', _, rfl⟩ := List.mem_map.mp hmK
        rw [hpar]
        rfl
  · intro nodes xid h
    unfold deleteNode
    simp only [h]

/-- C8 witness: deleting `X` from `delDemoFixture` — the conclusions
evaluated on the concrete snapshot via the theorem. -/
theorem c8_delete_promotes_children_witness :
    (∀ n ∈ deleteNode delDemoFixture ("X"), n.id ≠ "X") ∧
    (∀ y : String, y ≠ "X" →
      ((∃ n ∈ deleteNode delDemoFixture ("X"), n.id = y) ↔
        ∃ n ∈ delDemoFixture, n.id = y)) ∧
    (∀ n ∈ deleteNode delDemoFixture ("X"),
      (∃ c ∈ getChildren delDemoFixture (some ("X")), c.id = n.id) →
        n.parentId = some ROOT_NODE_ID) ∧
    (∃ bs as,
      getChildren delDemoFixture (some ROOT_NODE_ID) =
        bs ++ (⟨"X", "X", some ROOT_NODE_ID, 0⟩ : TreeNode) :: as ∧
      (getChildren (deleteNode delDemoFixture ("X")) (some ROOT_NODE_ID)).map
          (fun n => n.id) =
        bs.map (fun n => n.id) ++
          (getChildren delDemoFixture (some ("X"))).map (fun n => n.id) ++
          as.map (fun n => n.id)) :=
  c8_delete_promotes_children.1 delDemoFixture ("X") ⟨"X", "X", some ROOT_NODE_ID, 0⟩
    (by decide) (by decide) (by decide) (by decide) (by decide) (by decide) (by decide)
    (by decide)

/-- C2 witness: the iff and the descendant rejection evaluated on the
concrete forest `moveDemoFixture` at `A := a`, `B := b`. -/
theorem c2_moveNode_failure_iff_witness :
    ((moveNode moveDemoFixture ("a") (some ("b")) none = none ↔
        (some ("b") : Option String) = some ("a") ∨
          ∃ p, (some ("b") : Option String) = some p ∧
            p ∈ getDescendantIds moveDemoFixture ("a")) ∧
      ∀ B ∈ getDescendantIds moveDemoFixture ("a"),
        moveNode moveDemoFixture ("a") (some B) none = none) :=
  c2_moveNode_failure_iff moveDemoFixture ("a") (some ("b")) none (by decide)

end TreeOutliner
